import Mathlib

/-!
Verification development for the scm import module (iris/etl/scm.py).

Python strings are embedded as lists of characters (PyStr), Python dicts
of string fields as association lists (Row).  The transform layer and the
driver functions are translated from src/iris/etl/scm.py.  The block
format reader, the identity cache and the reconciliation engine live in
modules that are not part of the surveyed source; they are modelled from
the specification and marked as such in their doc comments.
-/

namespace Scm

/-- Python strings, embedded character by character. -/
abbrev PyStr := List Char

/-- Python dicts with string keys and string values, embedded as
association lists from field name to value. -/
abbrev Row := List (String × PyStr)

/-- Resolved natural key of a row: the values of the declared key fields
(a missing field contributes none). -/
abbrev RKey := List (Option PyStr)

instance decEqRowPair : DecidableEq (Row × Row) := instDecidableEqProd

instance decEqRowPairList : DecidableEq (List (Row × Row)) := instDecidableEqList

instance decEqPartyOut : DecidableEq (List Row × List (Row × Row)) := instDecidableEqProd

/-- Whitespace strip from the left and right, embedding str.strip(). -/
def pstrip (s : PyStr) : PyStr :=
  ((s.dropWhile Char.isWhitespace).reverse.dropWhile Char.isWhitespace).reverse

/-- Character-wise lower casing, embedding str.lower(). -/
def lowerStr (s : PyStr) : PyStr := s.map Char.toLower

/-- Split at the first occurrence of a character, embedding
s.split(c, 1): the part before, and (when the character occurs) the part
after it. -/
def splitFirstChar (c : Char) : PyStr → PyStr × Option PyStr
  | [] => ([], none)
  | a :: rest =>
    if a = c then ([], some rest)
    else
      let r := splitFirstChar c rest
      (a :: r.1, r.2)

/-- Split at the first occurrence of a multi-character separator,
embedding s.split(sep, 1) for a nonempty separator. -/
def splitFirstSub (sep : PyStr) : PyStr → PyStr × Option PyStr
  | [] => ([], none)
  | a :: rest =>
    if sep.isPrefixOf (a :: rest) then ([], some ((a :: rest).drop sep.length))
    else
      let r := splitFirstSub sep rest
      (a :: r.1, r.2)

/-- Substring test for a multi-character separator, embedding the Python
expression sep in s. -/
def hasSub (sep : PyStr) : PyStr → Bool
  | [] => sep.isPrefixOf []
  | a :: rest => sep.isPrefixOf (a :: rest) || hasSub sep rest

/-- Field names present in a dict. -/
def fieldNames (d : Row) : List String := d.map Prod.fst

/-- Value of a field in a dict, none when absent. -/
def lookupField (r : Row) (k : String) : Option PyStr :=
  (r.find? (fun kv => decide (kv.1 = k))).map Prod.snd

/-- Value of a field in a dict with empty-string fallback, embedding the
Python item access r[k] on dicts that are known to carry the key. -/
def dictGet (r : Row) (k : String) : PyStr := (lookupField r k).getD []

/-- Modelled from the spec: applying a desired dict to an existing row.
Every field present in the desired dict takes the desired value; fields
absent from the desired dict are left untouched (spec 4.3, step 5). -/
def updateRow (r d : Row) : Row :=
  d ++ r.filter (fun kv => decide (kv.1 ∉ fieldNames d))

/-- Natural key of a row for a declared list of key fields. -/
def keyOf (ks : List String) (r : Row) : RKey := ks.map (fun f => lookupField r f)

/-- First desired dict whose natural key equals the given key. -/
def firstByKey (ks : List String) (d : List Row) (k : RKey) : Option Row :=
  d.find? (fun dd => decide (keyOf ks dd = k))

/-- Modelled from the spec: one desired representative per natural key,
keeping the first occurrence (the engine partitions by key sets, spec 4.3
step 2; duplicate desired keys collapse to one row). -/
def dedupByKeyAux (ks : List String) (seen : List RKey) : List Row → List Row
  | [] => []
  | dd :: rest =>
    if keyOf ks dd ∈ seen then dedupByKeyAux ks seen rest
    else dd :: dedupByKeyAux ks (keyOf ks dd :: seen) rest

/-- Modelled from the spec: desired dicts deduplicated by natural key. -/
def dedupByKey (ks : List String) (d : List Row) : List Row := dedupByKeyAux ks [] d

/-- Modelled from the spec: the update applied to one persisted row
during sync_entity: when some desired dict shares its natural key, the
row is updated with the first such dict, otherwise it is left alone. -/
def matchUpd (ks : List String) (d : List Row) (r : Row) : Row :=
  match firstByKey ks d (keyOf ks r) with
  | some dd => updateRow r dd
  | none => r

/-- Modelled from the spec: the insert and update phase of
sync_entity (spec 4.3 steps 2 and 3).  Rows whose key appears among the
desired keys are updated in place; desired keys not yet persisted are
inserted (one row per key).  Deletion is not performed here. -/
def syncTable (ks : List String) (d t : List Row) : List Row :=
  t.map (matchUpd ks d)
    ++ (dedupByKey ks d).filter (fun dd => decide (keyOf ks dd ∉ t.map (keyOf ks)))

/-- Modelled from the spec: the delete-candidate keys computed by
sync_entity in step 2: persisted keys that are not desired. -/
def deleteCands (ks : List String) (d t : List Row) : List RKey :=
  (t.map (keyOf ks)).filter (fun k => decide (k ∉ d.map (keyOf ks)))

/-- Modelled from the spec: invoking the deferred deletion closure:
exactly the rows whose keys were computed as delete candidates are
removed (spec 4.3 step 4). -/
def applyDelete (ks : List String) (cands : List RKey) (t : List Row) : List Row :=
  t.filter (fun r => decide (keyOf ks r ∉ cands))

/-- Modelled from the spec: one full sync_entity round for one table
including the later invocation of its deletion closure (the closure
captures the candidates computed against the pre-sync table). -/
def syncEntityRun (ks : List String) (d t : List Row) : List Row :=
  applyDelete ks (deleteCands ks d t) (syncTable ks d t)

/-- Modelled from the spec: inserting the desired edges that are not yet
persisted, in order, without duplicating existing edges (spec 4.3,
sync_nnr step 2). -/
def addMissing (edges : List (Row × Row)) (pairs : List (Row × Row)) : List (Row × Row) :=
  pairs.foldl (fun es p => if p ∈ es then es else es ++ [p]) edges

/-- Modelled from the spec: sync_nnr reconciles a many-to-many relation:
persisted edges whose owning side belongs to this run's desired set are
removed unless still desired, then missing desired edges are inserted;
edges outside the reconciliation scope are left untouched. -/
def syncNNR (ksA : List String) (pairs : List (Row × Row)) (edges : List (Row × Row)) :
    List (Row × Row) :=
  addMissing
    (edges.filter (fun e =>
      decide (keyOf ksA e.1 ∉ pairs.map (fun p => keyOf ksA p.1)) || decide (e ∈ pairs)))
    pairs

/-! Field code table and role set (scm.py lines 28-45). -/

/-- Field code table of scm.py (MAPPING, lines 28-41). -/
def MAPPING : List (String × String) :=
  [("A", "ARCHITECT"), ("B", "BRANCH"), ("C", "COMMENTS"), ("D", "DOMAIN"),
   ("I", "INTEGRATOR"), ("L", "LICENSES"), ("M", "MAINTAINER"), ("N", "PARENT"),
   ("O", "DESCRIPTION"), ("R", "REVIEWER"), ("T", "TREE PATH"), ("SL", "SUBDOMAIN_LEADER")]

/-- Modelled from the spec: the set ROLES of valid role field names is
computed in the source from an external enum (iris.core.models.user
role_choices, not part of the surveyed source).  The role field codes of
the spec (A, I, M, R) give this role name list. -/
def ROLES : List String := ["ARCHITECT", "INTEGRATOR", "MAINTAINER", "REVIEWER"]

/-- Default name for missing domain and subdomain names
(scm.py line 45). -/
def NONAME : PyStr := "Uncategorized".toList

/-! Block format reader.  The function parse_blocks lives in
iris/etl/parser.py which is not part of the surveyed source; the model
below follows spec section 4.1. -/

/-- Modelled from the spec: one parsed block.  The marker field's value
is held separately; every other field holds an ordered list of values
(singular fields hold one value, repeatable fields may hold several). -/
structure Block where
  marker : PyStr
  fields : List (String × List PyStr)
deriving DecidableEq

/-- Values of a named non-marker field of a block, none when absent. -/
def Block.getF (b : Block) (k : String) : Option (List PyStr) :=
  (b.fields.find? (fun kv => decide (kv.1 = k))).map Prod.snd

/-- Values of a named field with empty fallback, embedding
data.get(k, default-empty). -/
def Block.getVals (b : Block) (k : String) : List PyStr := (b.getF k).getD []

/-- Role field names actually present in a block, embedding the Python
set intersection ROLES and data.keys(). -/
def rolesOf (b : Block) : List String := ROLES.filter (fun r => (b.getF r).isSome)

/-- Modelled from the spec: the repeatable field names (role fields and
license fields append values; all other fields keep the last-seen
value). -/
def MULTI : List String := ROLES ++ ["LICENSES"]

/-- Split a text into lines at newline characters. -/
def splitChar (c : Char) : PyStr → List PyStr
  | [] => [[]]
  | a :: rest =>
    let r := splitChar c rest
    if a = c then [] :: r
    else
      match r with
      | [] => [[a]]
      | h :: t => (a :: h) :: t

/-- Modelled from the spec: recognizing a field line of shape
code:whitespace value.  The code must be nonempty upper-case letters
followed by a colon and whitespace (or line end); anything else is a
continuation or blank line. -/
def lineField (line : PyStr) : Option (String × PyStr) :=
  match splitFirstChar ':' line with
  | (code, some rest) =>
    if code.isEmpty then none
    else if !(code.all Char.isUpper) then none
    else if rest.isEmpty || (rest.headD ' ').isWhitespace then
      some (⟨code⟩, pstrip rest)
    else none
  | (_, none) => none

/-- Last continuation target while reading a block. -/
inductive LastF
  | lnone
  | lmarker
  | lfield (name : String)
deriving DecidableEq

/-- Reader state: finished blocks, the open block, continuation target. -/
structure PState where
  blocks : List Block
  cur : Option Block
  lastf : LastF
deriving DecidableEq

/-- Modelled from the spec: store a field value in a block: repeatable
fields append, singular fields keep the last-seen value. -/
def setFieldVal (fs : List (String × List PyStr)) (k : String) (v : PyStr) :
    List (String × List PyStr) :=
  if (fs.find? (fun kv => decide (kv.1 = k))).isSome then
    fs.map (fun kv =>
      if kv.1 = k then (kv.1, if k ∈ MULTI then kv.2 ++ [v] else [v]) else kv)
  else fs ++ [(k, [v])]

/-- Modelled from the spec: append a continuation line to the current
value of a field with a joining space. -/
def contAppend (vs : List PyStr) (line : PyStr) : List PyStr :=
  vs.dropLast ++ [vs.getLastD [] ++ (' ' :: pstrip line)]

/-- Modelled from the spec: processing one input line.  A field line
with the marker code flushes the open block and starts a new one; an
unmapped field code is a fatal error; a nonblank non-field line
continues the previous field's value. -/
def procLine (marker : String) (mapping : List (String × String))
    (st : PState) (line : PyStr) : Option PState :=
  match lineField line with
  | some cv =>
    match (mapping.find? (fun kv => decide (kv.1 = cv.1))).map Prod.snd with
    | none => none
    | some long =>
      if cv.1 = marker then
        some { blocks := st.blocks ++ (st.cur.map (fun b => [b])).getD [],
               cur := some { marker := cv.2, fields := [] },
               lastf := .lmarker }
      else
        match st.cur with
        | none => some { st with lastf := .lnone }
        | some b =>
          some { st with
                 cur := some { b with fields := setFieldVal b.fields long cv.2 },
                 lastf := .lfield long }
  | none =>
    if (pstrip line).isEmpty then some st
    else
      match st.cur, st.lastf with
      | some b, .lmarker =>
        some { st with cur := some { b with marker := b.marker ++ (' ' :: pstrip line) } }
      | some b, .lfield f =>
        some { st with
               cur := some { b with
                 fields := b.fields.map (fun kv =>
                   if kv.1 = f then (kv.1, contAppend kv.2 line) else kv) } }
      | _, _ => some st

/-- Modelled from the spec: parse_blocks (iris/etl/parser.py, not in the
surveyed source; spec section 4.1) turns raw text into a sequence of
blocks delimited by the marker field; an unrecognized field code fails
the whole parse. -/
def parse_blocks (text : PyStr) (marker : String) (mapping : List (String × String)) :
    Option (List Block) :=
  match (splitChar '\n' text).foldl
      (fun st line => st.bind (fun st => procLine marker mapping st line))
      (some { blocks := [], cur := none, lastf := .lnone }) with
  | none => none
  | some st => some (st.blocks ++ (st.cur.map (fun b => [b])).getD [])

/-! Identity cache.  The class UserCache lives in iris/etl/parser.py
which is not part of the surveyed source; the model below follows spec
section 4.2. -/

/-- Local part of an email address (the part before the first at sign). -/
def localPart (email : PyStr) : PyStr := (splitFirstChar '@' email).1

/-- Modelled from the spec: parsing one raw identity string of shape
Display Name and an email in angle brackets; a bare email is tolerated
(display name falls back to the local part); an entry without a
well-formed email is malformed and yields none. -/
def parseIdentity (raw : PyStr) : Option Row :=
  let t := pstrip raw
  match splitFirstChar '<' t with
  | (namePart, some rest) =>
    match splitFirstChar '>' rest with
    | (emailRaw, some _) =>
      let email := pstrip emailRaw
      if '@' ∈ email then
        let nm := pstrip namePart
        some [("email", email), ("name", if nm.isEmpty then localPart email else nm)]
      else none
    | (_, none) => none
  | (_, none) =>
    if '@' ∈ t then some [("email", t), ("name", localPart t)] else none

/-- Email field of a canonical identity record. -/
def emailOf (r : Row) : PyStr := dictGet r "email"

/-- Case-insensitive comparison key of a record's email. -/
def emailKey (r : Row) : PyStr := lowerStr (emailOf r)

/-- Modelled from the spec: the identity cache, a mapping from raw
identity string to canonical identity record (spec section 4.2). -/
structure UserCache where
  entries : List (PyStr × Row)
deriving DecidableEq

/-- Modelled from the spec: idempotent registration of a raw identity
string.  A malformed string registers nothing; a raw string whose email
matches an already-registered record (case-insensitively) maps to that
existing canonical record. -/
def UserCache.update (uc : UserCache) (raw : PyStr) : UserCache :=
  if (uc.entries.find? (fun e => decide (e.1 = raw))).isSome then uc
  else
    match parseIdentity raw with
    | none => uc
    | some rec0 =>
      match uc.entries.find? (fun e => decide (emailKey e.2 = emailKey rec0)) with
      | some e => { entries := uc.entries ++ [(raw, e.2)] }
      | none => { entries := uc.entries ++ [(raw, rec0)] }

/-- Modelled from the spec: lookup of a raw identity string; none is the
absence marker. -/
def UserCache.get (uc : UserCache) (raw : PyStr) : Option Row :=
  (uc.entries.find? (fun e => decide (e.1 = raw))).map Prod.snd

/-- Modelled from the spec: the set of canonical identity records,
unique by case-insensitive email, in first-registration order. -/
def UserCache.all (uc : UserCache) : List Row :=
  uc.entries.foldl
    (fun acc e => if acc.any (fun r => decide (emailKey r = emailKey e.2)) then acc
                  else acc ++ [e.2]) []

/-- Empty identity cache. -/
def UserCache.empty : UserCache := { entries := [] }

/-! Transform layer, translated from scm.py lines 48-200. -/

/-- Domain and subdomain name from a combined name
(scm.py parse_name, lines 48-56): split at the first slash, strip both
parts; a single nonempty part is a domain with subdomain Uncategorized;
an empty name gives Uncategorized twice. -/
def parse_name (name : PyStr) : PyStr × PyStr :=
  match splitFirstChar '/' name with
  | (p, none) =>
    let q := pstrip p
    if !q.isEmpty then (q, NONAME) else (NONAME, NONAME)
  | (a, some b) => (pstrip a, pstrip b)

/-- Registration of every role field value of one block into the cache
(inner loops of build_user_cache, scm.py lines 64-71). -/
def cacheBlock (uc : UserCache) (b : Block) : UserCache :=
  (rolesOf b).foldl (fun uc r => (b.getVals r).foldl UserCache.update uc) uc

/-- Full identity cache over all scm data
(scm.py build_user_cache, lines 59-72). -/
def build_user_cache (domains_data trees_data : List Block) : UserCache :=
  trees_data.foldl cacheBlock (domains_data.foldl cacheBlock UserCache.empty)

/-- Role name string (scm.py rolename, lines 75-78). -/
def rolename (role : String) (name : PyStr) : PyStr :=
  role.toList ++ (':' :: ' ' :: name)

/-- Subdomain role name string (scm.py subrolename, lines 81-84). -/
def subrolename (role : String) (dname sname : PyStr) : PyStr :=
  role.toList ++ (':' :: ' ' :: dname) ++ ('-' :: sname)

/-- Role-user pairs for one role record: one pair per role field value
resolved by the cache, values the cache does not know are skipped
(scm.py lines 107-110, 120-123, 166-169). -/
def roleUsers (uc : UserCache) (base : Row) (vals : List PyStr) : List (Row × Row) :=
  vals.filterMap (fun u => (uc.get u).map (fun usr => (base, usr)))

/-- Output tuple of transform_domains. -/
structure DomainsOut where
  domains : List Row
  subdomains : List Row
  domainroles : List Row
  subdomainroles : List Row
  domainrole_users : List (Row × Row)
  subdomainrole_users : List (Row × Row)
deriving DecidableEq

/-- Subdomain role key dict (scm.py lines 102-104). -/
def srBase (role : String) (dname sname : PyStr) : Row :=
  [("role", role.toList), ("subdomain__name", sname), ("subdomain__domain__name", dname)]

/-- Domain role key dict (scm.py lines 117-118). -/
def drBase (role : String) (name : PyStr) : Row :=
  [("role", role.toList), ("domain__name", name)]

/-- Transform of one subdomain block
(scm.py _trans_subdomain, lines 97-110). -/
def transSubdomain (uc : UserCache) (acc : DomainsOut) (b : Block) : DomainsOut :=
  let dn := (parse_name b.marker).1
  let sn := (parse_name b.marker).2
  { acc with
    subdomains := acc.subdomains ++ [[("name", sn), ("domain__name", dn)]],
    subdomainroles := acc.subdomainroles ++
      (rolesOf b).map (fun role => srBase role dn sn ++ [("name", subrolename role dn sn)]),
    subdomainrole_users := acc.subdomainrole_users ++
      ((rolesOf b).map (fun role => roleUsers uc (srBase role dn sn) (b.getVals role))).flatten }

/-- Transform of one domain block (scm.py _trans_domain, lines 112-123). -/
def transDomain (uc : UserCache) (acc : DomainsOut) (b : Block) : DomainsOut :=
  let name := b.marker
  { acc with
    domains := acc.domains ++ [[("name", name)]],
    domainroles := acc.domainroles ++
      (rolesOf b).map (fun role => drBase role name ++ [("name", rolename role name)]),
    domainrole_users := acc.domainrole_users ++
      ((rolesOf b).map (fun role => roleUsers uc (drBase role name) (b.getVals role))).flatten }

/-- Initial accumulator of transform_domains: the Uncategorized domain
is always desired (scm.py line 93). -/
def domInit : DomainsOut :=
  { domains := [[("name", NONAME)]], subdomains := [], domainroles := [],
    subdomainroles := [], domainrole_users := [], subdomainrole_users := [] }

/-- Dispatch on one domain block: a block with a PARENT field is a
subdomain block (scm.py lines 125-130). -/
def domStep (uc : UserCache) (acc : DomainsOut) (b : Block) : DomainsOut :=
  if (b.getF "PARENT").isSome then transSubdomain uc acc b else transDomain uc acc b

/-- Transform of the domain blocks into desired Domain, SubDomain,
DomainRole, SubDomainRole rows and role-user pairs
(scm.py transform_domains, lines 87-137).  After the block loop an
Uncategorized subdomain is appended for every domain in the output
(scm.py lines 132-134). -/
def transform_domains (domains_data : List Block) (uc : UserCache) : DomainsOut :=
  let mid := domains_data.foldl (domStep uc) domInit
  { mid with
    subdomains := mid.subdomains ++
      mid.domains.map (fun dom => [("name", NONAME), ("domain__name", dictGet dom "name")]) }

/-- Output tuple of transform_trees. -/
structure TreesOut where
  trees : List Row
  tree_licenses : List (Row × Row)
  treeroles : List Row
  treerole_users : List (Row × Row)
deriving DecidableEq

/-- Separator between domain and subdomain in a tree block's DOMAIN
value (scm.py lines 147, 152-154). -/
def SEPDOM : PyStr := " / ".toList

/-- Gittree role key dict (scm.py lines 163-164). -/
def trBase (role : String) (path : PyStr) : Row :=
  [("role", role.toList), ("gittree__gitpath", path)]

/-- Transform of one tree block (scm.py loop body, lines 148-169). -/
def transTree (uc : UserCache) (acc : TreesOut) (b : Block) : TreesOut :=
  let path := b.marker
  let no_domain := NONAME ++ SEPDOM ++ NONAME
  let name0 :=
    match b.getF "DOMAIN" with
    | some (v :: _) => v
    | some [] => []
    | none => no_domain
  let name1 := if name0.isEmpty then no_domain else name0
  let name := if !(hasSub SEPDOM name1) then name1 ++ SEPDOM ++ NONAME else name1
  let dn_sn :=
    match splitFirstSub SEPDOM name with
    | (d, some s) => (d, s)
    | (d, none) => (d, NONAME)
  { acc with
    trees := acc.trees ++
      [[("gitpath", path), ("subdomain__name", dn_sn.2), ("subdomain__domain__name", dn_sn.1)]],
    tree_licenses := acc.tree_licenses ++
      (b.getVals "LICENSES").map (fun licen => ([("gitpath", path)], [("shortname", licen)])),
    treeroles := acc.treeroles ++
      (rolesOf b).map (fun role => trBase role path ++ [("name", rolename role path)]),
    treerole_users := acc.treerole_users ++
      ((rolesOf b).map (fun role => roleUsers uc (trBase role path) (b.getVals role))).flatten }

/-- Transform of the tree blocks into desired GitTree rows, license
pairs, GitTreeRole rows and role-user pairs
(scm.py transform_trees, lines 140-171). -/
def transform_trees (trees_data : List Block) (uc : UserCache) : TreesOut :=
  trees_data.foldl (transTree uc)
    { trees := [], tree_licenses := [], treeroles := [], treerole_users := [] }

/-- Modelled from the spec: the party choice table comes from
iris.core.models.user party_choices, which is not part of the surveyed
source; the three party codes used by transform_parties are INTEL,
SAMSUNG and TIZEN. -/
def PARTY_CHOICES : List (String × String) :=
  [("INTEL", "Intel"), ("SAMSUNG", "Samsung"), ("TIZEN", "Tizen")]

/-- Desired UserParty rows built from the party choice table
(scm.py line 178). -/
def PARTY_ROWS : List Row :=
  PARTY_CHOICES.map (fun pn => [("party", pn.1.toList), ("name", pn.2.toList)])

/-- Party assignment of one user (scm.py lines 180-188): the part of the
email after the first at sign, lower cased, decides the party by domain
suffix, with TIZEN as the default bucket.  A user email without an at
sign makes the item access raise (embedded as none). -/
def partyUser (user : Row) : Option (Row × Row) :=
  match (splitFirstChar '@' (dictGet user "email")).2 with
  | none => none
  | some dom =>
    let suffix := lowerStr dom
    let party :=
      if ("intel.com".toList).isSuffixOf suffix then "INTEL".toList
      else if ("samsung.com".toList).isSuffixOf suffix then "SAMSUNG".toList
      else "TIZEN".toList
    some ([("party", party)], user)

/-- Option-valued list map that stops at the first failure, embedding a
Python loop that can raise. -/
def mapOpt (f : α → Option β) : List α → Option (List β)
  | [] => some []
  | a :: l =>
    match f a with
    | none => none
    | some b =>
      match mapOpt f l with
      | none => none
      | some bs => some (b :: bs)

/-- Transform of users into desired UserParty rows and party-user pairs
(scm.py transform_parties, lines 174-189); none embeds the IndexError
raised for an email without an at sign. -/
def transform_parties (users : List Row) : Option (List Row × List (Row × Row)) :=
  match mapOpt partyUser users with
  | some pus => some (PARTY_ROWS, pus)
  | none => none

/-- Transform of cached identity records into database-shaped user
dicts: username is a copy of the email
(scm.py transform_users, lines 192-200). -/
def transform_users (ucusers : List Row) : List Row :=
  ucusers.map (fun i => ("username", dictGet i "email") :: i)

/-! Load phase.  The loader returned by get_default_loader lives in
iris/etl/loader.py which is not part of the surveyed source; its two
primitives are modelled above (syncTable, deleteCands, applyDelete,
syncNNR).  Natural keys are modelled from the spec as the identifying
field subsets of each entity table; dotted-path key components are kept
as literal key fields of the rows. -/

/-- Modelled from the spec: natural key of the User table. -/
def userKey : List String := ["email"]

/-- Modelled from the spec: natural key of the Domain table. -/
def domainKey : List String := ["name"]

/-- Modelled from the spec: natural key of the SubDomain table. -/
def subdomainKey : List String := ["name", "domain__name"]

/-- Modelled from the spec: natural key of the DomainRole table. -/
def domainroleKey : List String := ["role", "domain__name"]

/-- Modelled from the spec: natural key of the SubDomainRole table. -/
def subdomainroleKey : List String := ["role", "subdomain__name", "subdomain__domain__name"]

/-- Modelled from the spec: natural key of the GitTree table. -/
def gittreeKey : List String := ["gitpath"]

/-- Modelled from the spec: natural key of the GitTreeRole table. -/
def gittreeroleKey : List String := ["role", "gittree__gitpath"]

/-- Modelled from the spec: natural key of the UserParty table. -/
def partyKey : List String := ["party"]

/-- Persisted store: one row list per entity table and one edge list per
many-to-many relation. -/
structure Store where
  users : List Row
  domains : List Row
  subdomains : List Row
  domainroles : List Row
  subdomainroles : List Row
  trees : List Row
  treeroles : List Row
  parties : List Row
  domainrole_users : List (Row × Row)
  subdomainrole_users : List (Row × Row)
  tree_licenses : List (Row × Row)
  treerole_users : List (Row × Row)
  party_users : List (Row × Row)
deriving DecidableEq

/-- Desired state computed by the extract and transform steps of one
run. -/
structure Desired where
  users : List Row
  domains : List Row
  subdomains : List Row
  domainroles : List Row
  subdomainroles : List Row
  trees : List Row
  treeroles : List Row
  parties : List Row
  domainrole_users : List (Row × Row)
  subdomainrole_users : List (Row × Row)
  tree_licenses : List (Row × Row)
  treerole_users : List (Row × Row)
  party_users : List (Row × Row)
deriving DecidableEq

/-- Load phase of from_unicode (scm.py lines 242-265): every entity
table is synced (the User deletion closure is discarded, line 244), the
five relation tables are synced, then the seven retained deletion
closures are invoked; each closure deletes the candidates computed
against its table's pre-sync state. -/
def loadPhase (D : Desired) (s : Store) : Store :=
  { users := syncTable userKey D.users s.users,
    domains := syncEntityRun domainKey D.domains s.domains,
    subdomains := syncEntityRun subdomainKey D.subdomains s.subdomains,
    domainroles := syncEntityRun domainroleKey D.domainroles s.domainroles,
    subdomainroles := syncEntityRun subdomainroleKey D.subdomainroles s.subdomainroles,
    trees := syncEntityRun gittreeKey D.trees s.trees,
    treeroles := syncEntityRun gittreeroleKey D.treeroles s.treeroles,
    parties := syncEntityRun partyKey D.parties s.parties,
    domainrole_users := syncNNR domainroleKey D.domainrole_users s.domainrole_users,
    subdomainrole_users := syncNNR subdomainroleKey D.subdomainrole_users s.subdomainrole_users,
    tree_licenses := syncNNR gittreeKey D.tree_licenses s.tree_licenses,
    treerole_users := syncNNR gittreeroleKey D.treerole_users s.treerole_users,
    party_users := syncNNR partyKey D.party_users s.party_users }

/-- Parse, extract and transform steps of from_unicode
(scm.py lines 223-240): the desired state of one run, none when parsing
or the party transform raises. -/
def desiredOf (domain_str gittree_str : PyStr) : Option Desired :=
  match parse_blocks domain_str "D" MAPPING, parse_blocks gittree_str "T" MAPPING with
  | some dd, some td =>
    let uc := build_user_cache dd td
    let users := transform_users uc.all
    let dout := transform_domains dd uc
    let tout := transform_trees td uc
    match transform_parties users with
    | some pt =>
      some { users := users,
             domains := dout.domains, subdomains := dout.subdomains,
             domainroles := dout.domainroles, subdomainroles := dout.subdomainroles,
             trees := tout.trees, treeroles := tout.treeroles,
             parties := pt.1,
             domainrole_users := dout.domainrole_users,
             subdomainrole_users := dout.subdomainrole_users,
             tree_licenses := tout.tree_licenses,
             treerole_users := tout.treerole_users,
             party_users := pt.2 }
    | none => none
  | _, _ => none

/-- Import of scm data from unicode strings
(scm.py from_unicode, lines 216-265), acting on a persisted store; none
embeds a raised error, in which case no store operation has happened. -/
def from_unicode (domain_str gittree_str : PyStr) (s : Store) : Option Store :=
  (desiredOf domain_str gittree_str).map (fun D => loadPhase D s)

/-- Observable store after one from_unicode call: a raising run leaves
the store untouched. -/
def from_unicode_run (domain_str gittree_str : PyStr) (s : Store) : Store :=
  (from_unicode domain_str gittree_str s).getD s

/-- Raw input text: Python 2 byte strings (str) or unicode strings. -/
inductive PyText
  | bytes (b : List Nat)
  | uni (s : PyStr)
deriving DecidableEq

/-- Decoding of an input blob under a named coding; byte strings go
through the decoder (an external collaborator, passed as a function),
unicode strings pass through unchanged (scm.py lines 209-212). -/
def decodeWith (dec : String → List Nat → Option PyStr) (coding : String) :
    PyText → Option PyStr
  | .bytes b => dec coding b
  | .uni s => some s

/-- Default coding of from_string (scm.py line 203). -/
def DEFAULT_CODING : String := "utf8"

/-- Import of scm data from strings (scm.py from_string, lines 203-213):
both inputs are decoded under the given coding before from_unicode runs;
a decode failure aborts with none before any parsing or store
operation. -/
def from_string (dec : String → List Nat → Option PyStr)
    (domain_str gittree_str : PyText) (coding : String) (s : Store) : Option Store :=
  match decodeWith dec coding domain_str with
  | none => none
  | some d =>
    match decodeWith dec coding gittree_str with
    | none => none
    | some g => from_unicode d g s

/-! Call-order trace of the load phase of from_unicode
(scm.py lines 243-265). -/

/-- Entity tables touched by the load phase. -/
inductive STable
  | User
  | Domain
  | SubDomain
  | DomainRole
  | SubDomainRole
  | GitTree
  | GitTreeRole
  | UserParty
  | License
deriving DecidableEq, Fintype

/-- One observable loader call of from_unicode. -/
inductive Event
  | syncEntity (t : STable)
  | syncNNR (a b : STable)
  | invokeDelete (t : STable)
deriving DecidableEq

/-- Straight-line call order of the load phase of from_unicode
(scm.py lines 244-265): eight entity syncs, five relation syncs, then
the seven retained deletion closures; the User deletion closure is
discarded at line 244 and never appears as an invocation. -/
def loadTrace : List Event :=
  [.syncEntity .User, .syncEntity .Domain, .syncEntity .SubDomain,
   .syncEntity .DomainRole, .syncEntity .SubDomainRole, .syncEntity .GitTree,
   .syncEntity .GitTreeRole, .syncEntity .UserParty,
   .syncNNR .DomainRole .User, .syncNNR .SubDomainRole .User,
   .syncNNR .GitTree .License, .syncNNR .GitTreeRole .User,
   .syncNNR .UserParty .User,
   .invokeDelete .UserParty, .invokeDelete .GitTreeRole,
   .invokeDelete .SubDomainRole, .invokeDelete .DomainRole,
   .invokeDelete .GitTree, .invokeDelete .SubDomain, .invokeDelete .Domain]

/-- Test for a sync call (entity or relation). -/
def isSyncEvent : Event → Bool
  | .syncEntity _ => true
  | .syncNNR _ _ => true
  | .invokeDelete _ => false

/-- Test for a deletion closure invocation. -/
def isDeleteEvent : Event → Bool
  | .invokeDelete _ => true
  | _ => false

/-- Position of the first occurrence of an event in a trace. -/
def evIdx (tr : List Event) (e : Event) : Nat := tr.indexOf e

/-- Decidable check that every deletion closure invocation comes after
every sync call in a trace. -/
def syncsBeforeDeletes (tr : List Event) : Bool :=
  tr.enum.all (fun p =>
    !(isDeleteEvent p.2) ||
      tr.enum.all (fun q => !(isSyncEvent q.2) || decide (q.1 < p.1)))

/-- Structural invariant of the identity cache: two registered records
with equal case-insensitive emails are one and the same record, and
every entry's record email agrees case-insensitively with the email
parsed from its raw string. -/
def CacheInv (uc : UserCache) : Prop :=
  (∀ e1 ∈ uc.entries, ∀ e2 ∈ uc.entries, emailKey e1.2 = emailKey e2.2 → e1.2 = e2.2) ∧
  (∀ e ∈ uc.entries, ∃ p, parseIdentity e.1 = some p ∧ emailKey p = emailKey e.2)

/-! Row-level lemmas. -/

/-- Filtering a dict by absence of its own field names gives nothing. -/
theorem filter_self_fields (d : Row) :
    d.filter (fun kv => decide (kv.1 ∉ fieldNames d)) = [] := by
  rw [List.filter_eq_nil]
  intro kv hkv
  simp only [decide_eq_true_iff, Decidable.not_not, Bool.not_eq_true]
  simp only [fieldNames, decide_not, Bool.not_eq_true', decide_eq_false_iff_not,
    Decidable.not_not]
  exact List.mem_map_of_mem Prod.fst hkv

/-- Applying the same desired dict twice equals applying it once. -/
theorem updateRow_updateRow (r d : Row) :
    updateRow (updateRow r d) d = updateRow r d := by
  unfold updateRow
  rw [List.filter_append, filter_self_fields, List.nil_append, List.filter_filter]
  congr 1
  apply List.filter_congr
  intro kv _
  cases h : decide (kv.1 ∉ fieldNames d) <;> simp [h]

/-- Applying a dict to itself changes nothing. -/
theorem updateRow_self (r : Row) : updateRow r r = r := by
  unfold updateRow
  rw [filter_self_fields, List.append_nil]

/-- Finding under a stronger predicate ignores a filter by a weaker
one. -/
theorem find?_filter_of {α : Type} (p q : α → Bool) (l : List α)
    (h : ∀ a, p a = true → q a = true) :
    List.find? p (l.filter q) = List.find? p l := by
  induction l with
  | nil => rfl
  | cons a l ih =>
    by_cases hp : p a = true
    · have hq := h a hp
      simp [List.filter_cons, hq, List.find?_cons, hp]
    · have hp' : p a = false := by simpa using hp
      by_cases hq : q a = true
      · simp [List.filter_cons, hq, List.find?_cons, hp', ih]
      · have hq' : q a = false := by simpa using hq
        simp [List.filter_cons, hq', List.find?_cons, hp', ih]

/-- Field lookup in an updated row, for a field the desired dict sets. -/
theorem lookupField_updateRow_mem (r d : Row) (f : String)
    (h : f ∈ fieldNames d) :
    lookupField (updateRow r d) f = lookupField d f := by
  unfold updateRow lookupField
  rw [List.find?_append]
  obtain ⟨kv, hkv, hf⟩ : ∃ kv ∈ d, kv.1 = f := by
    simpa [fieldNames, eq_comm] using h
  have : (d.find? (fun kv => decide (kv.1 = f))).isSome := by
    rw [List.find?_isSome]
    exact ⟨kv, hkv, by simp [hf]⟩
  obtain ⟨e, he⟩ := Option.isSome_iff_exists.mp this
  simp [he]

/-- Field lookup in an updated row, for a field the desired dict does
not set. -/
theorem lookupField_updateRow_not_mem (r d : Row) (f : String)
    (h : f ∉ fieldNames d) :
    lookupField (updateRow r d) f = lookupField r f := by
  unfold updateRow lookupField
  rw [List.find?_append]
  have hd : d.find? (fun kv => decide (kv.1 = f)) = none := by
    rw [List.find?_eq_none]
    intro kv hkv
    simp only [decide_eq_true_iff]
    intro hf
    exact h (hf ▸ List.mem_map_of_mem Prod.fst hkv)
  rw [hd]
  simp only [Option.none_or]
  congr 1
  apply find?_filter_of
  intro kv hkv
  simp only [decide_eq_true_iff] at hkv ⊢
  exact hkv ▸ h

/-- Rows agreeing on their natural key agree field by field on the key
fields. -/
theorem keyOf_eq_pointwise (ks : List String) (r d : Row)
    (h : keyOf ks r = keyOf ks d) :
    ∀ f ∈ ks, lookupField r f = lookupField d f := by
  intro f hf
  have := List.map_eq_map_iff.mp h
  exact this f hf

/-- Updating a row with a dict of the same natural key preserves the
key. -/
theorem keyOf_updateRow (ks : List String) (r d : Row)
    (h : keyOf ks r = keyOf ks d) :
    keyOf ks (updateRow r d) = keyOf ks r := by
  unfold keyOf
  apply List.map_eq_map_iff.mpr
  intro f hf
  by_cases hm : f ∈ fieldNames d
  · rw [lookupField_updateRow_mem r d f hm]
    exact (keyOf_eq_pointwise ks r d h f hf).symm
  · exact lookupField_updateRow_not_mem r d f hm

/-! Engine lemmas: sync_entity. -/

/-- Members of the deduplicated desired list come from the desired
list. -/
theorem dedup_sub (ks : List String) (seen : List RKey) (l : List Row) :
    ∀ x ∈ dedupByKeyAux ks seen l, x ∈ l := by
  induction l generalizing seen with
  | nil => intro x hx; cases hx
  | cons dd rest ih =>
    intro x hx
    unfold dedupByKeyAux at hx
    by_cases hs : keyOf ks dd ∈ seen
    · simp only [if_pos hs] at hx
      exact List.mem_cons_of_mem dd (ih seen x hx)
    · simp only [if_neg hs, List.mem_cons] at hx
      rcases hx with hx | hx
      · exact hx ▸ List.mem_cons_self dd rest
      · exact List.mem_cons_of_mem dd (ih _ x hx)

/-- A deduplicated desired row is the first desired dict of its key, and
its key is not among the already-seen keys. -/
theorem dedup_first (ks : List String) (seen : List RKey) (l : List Row) :
    ∀ x ∈ dedupByKeyAux ks seen l,
      keyOf ks x ∉ seen ∧ firstByKey ks l (keyOf ks x) = some x := by
  induction l generalizing seen with
  | nil => intro x hx; cases hx
  | cons dd rest ih =>
    intro x hx
    unfold dedupByKeyAux at hx
    by_cases hs : keyOf ks dd ∈ seen
    · simp only [if_pos hs] at hx
      obtain ⟨hns, hfirst⟩ := ih seen x hx
      have hne : ¬(keyOf ks dd = keyOf ks x) := fun he => hns (he ▸ hs)
      refine ⟨hns, ?_⟩
      unfold firstByKey at hfirst ⊢
      rw [List.find?_cons]
      simp [hne, hfirst]
    · simp only [if_neg hs, List.mem_cons] at hx
      rcases hx with hx | hx
      · subst hx
        refine ⟨hs, ?_⟩
        unfold firstByKey
        rw [List.find?_cons]
        simp
      · obtain ⟨hns, hfirst⟩ := ih _ x hx
        simp only [List.mem_cons, not_or] at hns
        refine ⟨hns.2, ?_⟩
        unfold firstByKey at hfirst ⊢
        rw [List.find?_cons]
        have hne : ¬(keyOf ks dd = keyOf ks x) := fun he => hns.1 he.symm
        simp [hne, hfirst]

/-- Every desired key not yet seen has a representative in the
deduplicated desired list. -/
theorem dedup_covers (ks : List String) (seen : List RKey) (l : List Row) :
    ∀ k, k ∈ l.map (keyOf ks) → k ∉ seen →
      ∃ x ∈ dedupByKeyAux ks seen l, keyOf ks x = k := by
  induction l generalizing seen with
  | nil => intro k hk; simp at hk
  | cons dd rest ih =>
    intro k hk hns
    unfold dedupByKeyAux
    simp only [List.map_cons, List.mem_cons] at hk
    by_cases hs : keyOf ks dd ∈ seen
    · rw [if_pos hs]
      rcases hk with hk | hk
      · exact absurd (hk ▸ hs) hns
      · exact ih seen k hk hns
    · rw [if_neg hs]
      rcases hk with hk | hk
      · exact ⟨dd, List.mem_cons_self _ _, hk.symm⟩
      · by_cases hkd : k = keyOf ks dd
        · exact ⟨dd, List.mem_cons_self _ _, hkd.symm⟩
        · obtain ⟨x, hx, hkx⟩ := ih (keyOf ks dd :: seen) k hk
            (by simp [hkd, hns])
          exact ⟨x, List.mem_cons_of_mem dd hx, hkx⟩

/-- The per-row update of sync_entity preserves the row's natural
key. -/
theorem matchUpd_key (ks : List String) (d : List Row) (r : Row) :
    keyOf ks (matchUpd ks d r) = keyOf ks r := by
  unfold matchUpd
  cases h : firstByKey ks d (keyOf ks r) with
  | none => rfl
  | some dd =>
    have := List.find?_some h
    have hk : keyOf ks dd = keyOf ks r := of_decide_eq_true this
    exact keyOf_updateRow ks r dd hk.symm

/-- The per-row update of sync_entity is idempotent. -/
theorem matchUpd_matchUpd (ks : List String) (d : List Row) (r : Row) :
    matchUpd ks d (matchUpd ks d r) = matchUpd ks d r := by
  cases h : firstByKey ks d (keyOf ks r) with
  | none =>
    have hmu : matchUpd ks d r = r := by unfold matchUpd; rw [h]
    rw [hmu, hmu]
  | some dd =>
    have hmu : matchUpd ks d r = updateRow r dd := by unfold matchUpd; rw [h]
    have hkey : keyOf ks (updateRow r dd) = keyOf ks r := by
      rw [← hmu, matchUpd_key]
    rw [hmu]
    show matchUpd ks d (updateRow r dd) = updateRow r dd
    unfold matchUpd
    rw [hkey, h]
    exact updateRow_updateRow r dd

/-- Every row of the insert-and-update phase output is an updated
original row or a deduplicated desired row. -/
theorem syncTable_mem (ks : List String) (d t : List Row) :
    ∀ r ∈ syncTable ks d t,
      (∃ r0 ∈ t, r = matchUpd ks d r0) ∨ r ∈ dedupByKey ks d := by
  intro r hr
  unfold syncTable at hr
  rcases List.mem_append.mp hr with hr | hr
  · obtain ⟨r0, hr0, he⟩ := List.mem_map.mp hr
    exact Or.inl ⟨r0, hr0, he.symm⟩
  · exact Or.inr (List.mem_filter.mp hr).1

/-- Rows produced by the insert-and-update phase are fixpoints of the
per-row update. -/
theorem matchUpd_fix (ks : List String) (d t : List Row) :
    ∀ r ∈ syncTable ks d t, matchUpd ks d r = r := by
  intro r hr
  rcases syncTable_mem ks d t r hr with ⟨r0, _, he⟩ | hd
  · rw [he]; exact matchUpd_matchUpd ks d r0
  · obtain ⟨_, hfirst⟩ := dedup_first ks [] d r hd
    unfold matchUpd
    rw [hfirst]
    exact updateRow_self r

/-- Every desired key is a key of the insert-and-update phase output. -/
theorem keys_syncTable (ks : List String) (d t : List Row) :
    ∀ k ∈ d.map (keyOf ks), k ∈ (syncTable ks d t).map (keyOf ks) := by
  intro k hk
  by_cases ht : k ∈ t.map (keyOf ks)
  · obtain ⟨r0, hr0, hkr⟩ := List.mem_map.mp ht
    have : matchUpd ks d r0 ∈ syncTable ks d t := by
      unfold syncTable
      exact List.mem_append_left _ (List.mem_map_of_mem _ hr0)
    have hkey : keyOf ks (matchUpd ks d r0) = k := by rw [matchUpd_key, hkr]
    exact List.mem_map.mpr ⟨_, this, hkey⟩
  · obtain ⟨x, hx, hkx⟩ := dedup_covers ks [] d k hk (by simp)
    have hmem : x ∈ syncTable ks d t := by
      unfold syncTable
      refine List.mem_append_right _ (List.mem_filter.mpr ⟨hx, ?_⟩)
      simp only [decide_eq_true_iff]
      exact hkx ▸ ht
    exact List.mem_map.mpr ⟨x, hmem, hkx⟩

/-- The insert-and-update phase changes nothing on a table whose rows
are fixpoints and whose keys cover the desired keys. -/
theorem syncTable_fix (ks : List String) (d t' : List Row)
    (hfix : ∀ r ∈ t', matchUpd ks d r = r)
    (hcov : ∀ k ∈ d.map (keyOf ks), k ∈ t'.map (keyOf ks)) :
    syncTable ks d t' = t' := by
  unfold syncTable
  have h1 : t'.map (matchUpd ks d) = t' := by
    conv_rhs => rw [← List.map_id t']
    exact List.map_congr_left hfix
  have h2 : (dedupByKey ks d).filter
      (fun dd => decide (keyOf ks dd ∉ t'.map (keyOf ks))) = [] := by
    rw [List.filter_eq_nil]
    intro dd hdd
    simp only [decide_eq_true_iff, Decidable.not_not, Bool.not_eq_true,
      decide_eq_false_iff_not, Decidable.not_not]
    exact hcov _ (List.mem_map_of_mem _ (dedup_sub ks [] d dd hdd))
  rw [h1, h2, List.append_nil]

/-- The insert-and-update phase of sync_entity is idempotent. -/
theorem syncTable_idem (ks : List String) (d t : List Row) :
    syncTable ks d (syncTable ks d t) = syncTable ks d t :=
  syncTable_fix ks d _ (matchUpd_fix ks d t) (keys_syncTable ks d t)

/-- Membership in the table after a deletion closure ran. -/
theorem mem_applyDelete (ks : List String) (cands : List RKey) (t : List Row) (r : Row) :
    r ∈ applyDelete ks cands t ↔ r ∈ t ∧ keyOf ks r ∉ cands := by
  unfold applyDelete
  rw [List.mem_filter]
  simp [decide_eq_true_iff]

/-- A deletion closure with no candidates deletes nothing. -/
theorem applyDelete_nil (ks : List String) (t : List Row) :
    applyDelete ks [] t = t := by
  unfold applyDelete
  rw [List.filter_eq_self]
  intro r _
  simp

/-- Every key surviving one full sync_entity round is a desired key. -/
theorem run_keys_sub (ks : List String) (d t : List Row) :
    ∀ r ∈ syncEntityRun ks d t, keyOf ks r ∈ d.map (keyOf ks) := by
  intro r hr
  unfold syncEntityRun at hr
  obtain ⟨ht1, hnc⟩ := (mem_applyDelete ks _ _ r).mp hr
  rcases syncTable_mem ks d t r ht1 with ⟨r0, hr0, he⟩ | hd
  · subst he
    cases h : firstByKey ks d (keyOf ks r0) with
    | some dd =>
      have h2 : d.find? (fun x => decide (keyOf ks x = keyOf ks r0)) = some dd := h
      have hk : keyOf ks dd = keyOf ks r0 := by
        have hp := List.find?_some h2
        simpa using hp
      rw [matchUpd_key]
      exact hk ▸ List.mem_map_of_mem _ (List.mem_of_find?_eq_some h2)
    | none =>
      exfalso
      have hmu : matchUpd ks d r0 = r0 := by unfold matchUpd; rw [h]
      rw [hmu] at hnc
      apply hnc
      unfold deleteCands
      refine List.mem_filter.mpr ⟨List.mem_map_of_mem _ hr0, ?_⟩
      simp only [decide_eq_true_iff]
      intro hmem
      obtain ⟨dd, hdd, hkdd⟩ := List.mem_map.mp hmem
      have h3 : d.find? (fun x => decide (keyOf ks x = keyOf ks r0)) = none := h
      have := List.find?_eq_none.mp h3 dd hdd
      simp [hkdd] at this
  · have hx := dedup_sub ks [] d r hd
    exact List.mem_map_of_mem _ hx

/-- Every desired key survives one full sync_entity round. -/
theorem run_keys_sup (ks : List String) (d t : List Row) :
    ∀ k ∈ d.map (keyOf ks), k ∈ (syncEntityRun ks d t).map (keyOf ks) := by
  intro k hk
  obtain ⟨r, hr, hkr⟩ := List.mem_map.mp (keys_syncTable ks d t k hk)
  refine List.mem_map.mpr ⟨r, ?_, hkr⟩
  unfold syncEntityRun
  refine (mem_applyDelete ks _ _ r).mpr ⟨hr, ?_⟩
  intro hc
  unfold deleteCands at hc
  have := (List.mem_filter.mp hc).2
  rw [hkr] at this
  exact (of_decide_eq_true this) hk

/-- One full sync_entity round (sync plus deferred deletion) is
idempotent. -/
theorem syncEntityRun_idem (ks : List String) (d t : List Row) :
    syncEntityRun ks d (syncEntityRun ks d t) = syncEntityRun ks d t := by
  set u := syncEntityRun ks d t with hu
  have hcands : deleteCands ks d u = [] := by
    unfold deleteCands
    rw [List.filter_eq_nil]
    intro k hk
    obtain ⟨r, hr, hkr⟩ := List.mem_map.mp hk
    simp only [decide_eq_true_iff, Decidable.not_not, Bool.not_eq_true,
      decide_eq_false_iff_not, Decidable.not_not]
    exact hkr ▸ run_keys_sub ks d t r hr
  have hsync : syncTable ks d u = u := by
    apply syncTable_fix
    · intro r hr
      have : r ∈ syncTable ks d t := ((mem_applyDelete ks _ _ r).mp hr).1
      exact matchUpd_fix ks d t r this
    · exact run_keys_sup ks d t
  show applyDelete ks (deleteCands ks d u) (syncTable ks d u) = u
  rw [hcands, hsync, applyDelete_nil]

/-! Engine lemmas: sync_nnr. -/

/-- Inserting missing edges preserves existing edges. -/
theorem mem_addMissing_of_mem (es ps : List (Row × Row)) (e : Row × Row)
    (he : e ∈ es) : e ∈ addMissing es ps := by
  unfold addMissing
  induction ps generalizing es with
  | nil => exact he
  | cons p rest ih =>
    rw [List.foldl_cons]
    by_cases hp : p ∈ es
    · rw [if_pos hp]; exact ih es he
    · rw [if_neg hp]; exact ih _ (List.mem_append_left _ he)

/-- Every desired edge is present after inserting missing edges. -/
theorem pairs_sub_addMissing (es ps : List (Row × Row)) (p : Row × Row)
    (hp : p ∈ ps) : p ∈ addMissing es ps := by
  unfold addMissing
  induction ps generalizing es with
  | nil => cases hp
  | cons q rest ih =>
    rw [List.foldl_cons]
    rcases List.mem_cons.mp hp with hpq | hp'
    · subst hpq
      by_cases hq : p ∈ es
      · rw [if_pos hq]
        exact mem_addMissing_of_mem es rest p hq
      · rw [if_neg hq]
        exact mem_addMissing_of_mem _ rest p (List.mem_append_right _ (List.mem_singleton.mpr rfl))
    · by_cases hq : q ∈ es
      · rw [if_pos hq]; exact ih es hp'
      · rw [if_neg hq]; exact ih (es ++ [q]) hp'

/-- Inserting already-present desired edges changes nothing. -/
theorem addMissing_eq_self (es ps : List (Row × Row))
    (h : ∀ p ∈ ps, p ∈ es) : addMissing es ps = es := by
  unfold addMissing
  induction ps with
  | nil => rfl
  | cons p rest ih =>
    rw [List.foldl_cons, if_pos (h p (List.mem_cons_self p rest))]
    exact ih (fun q hq => h q (List.mem_cons_of_mem p hq))

/-- Edges present after inserting missing edges were present before or
are desired. -/
theorem mem_addMissing (es ps : List (Row × Row)) (e : Row × Row)
    (he : e ∈ addMissing es ps) : e ∈ es ∨ e ∈ ps := by
  unfold addMissing at he
  induction ps generalizing es with
  | nil => exact Or.inl he
  | cons p rest ih =>
    rw [List.foldl_cons] at he
    by_cases hp : p ∈ es
    · rw [if_pos hp] at he
      rcases ih es he with h | h
      · exact Or.inl h
      · exact Or.inr (List.mem_cons_of_mem p h)
    · rw [if_neg hp] at he
      rcases ih _ he with h | h
      · rcases List.mem_append.mp h with h | h
        · exact Or.inl h
        · exact Or.inr (List.mem_cons.mpr (Or.inl (List.mem_singleton.mp h)))
      · exact Or.inr (List.mem_cons_of_mem p h)

/-- Filtering the kept-edge predicate and inserting missing edges
changes nothing on a set of edges that already satisfies both. -/
theorem syncNNR_fix (ksA : List String) (ps X : List (Row × Row))
    (hX : ∀ e ∈ X,
      (decide (keyOf ksA e.1 ∉ ps.map (fun p => keyOf ksA p.1)) || decide (e ∈ ps)) = true)
    (hps : ∀ p ∈ ps, p ∈ X) :
    syncNNR ksA ps X = X := by
  unfold syncNNR
  rw [List.filter_eq_self.mpr hX]
  exact addMissing_eq_self X ps hps

/-- One sync_nnr round is idempotent. -/
theorem syncNNR_idem (ksA : List String) (ps E : List (Row × Row)) :
    syncNNR ksA ps (syncNNR ksA ps E) = syncNNR ksA ps E := by
  apply syncNNR_fix
  · intro e he
    have he' : e ∈ addMissing (E.filter (fun e =>
        decide (keyOf ksA e.1 ∉ ps.map (fun p => keyOf ksA p.1)) || decide (e ∈ ps))) ps := he
    rcases mem_addMissing _ _ e he' with h | h
    · exact (List.mem_filter.mp h).2
    · simp only [Bool.or_eq_true, decide_eq_true_iff]
      exact Or.inr h
  · intro p hp
    show p ∈ addMissing (E.filter (fun e =>
        decide (keyOf ksA e.1 ∉ ps.map (fun p => keyOf ksA p.1)) || decide (e ∈ ps))) ps
    exact pairs_sub_addMissing _ ps p hp

/-! Load phase and pipeline lemmas. -/

/-- One load phase applied twice with the same desired state equals one
application. -/
theorem loadPhase_idem (D : Desired) (s : Store) :
    loadPhase D (loadPhase D s) = loadPhase D s := by
  simp only [loadPhase, Store.mk.injEq]
  exact ⟨syncTable_idem _ _ _,
    syncEntityRun_idem _ _ _, syncEntityRun_idem _ _ _, syncEntityRun_idem _ _ _,
    syncEntityRun_idem _ _ _, syncEntityRun_idem _ _ _, syncEntityRun_idem _ _ _,
    syncEntityRun_idem _ _ _,
    syncNNR_idem _ _ _, syncNNR_idem _ _ _, syncNNR_idem _ _ _,
    syncNNR_idem _ _ _, syncNNR_idem _ _ _⟩

/-- A persisted row whose key is not desired is kept unchanged by the
insert-and-update phase. -/
theorem syncTable_preserves (ks : List String) (d t : List Row) (r : Row)
    (hr : r ∈ t) (hk : keyOf ks r ∉ d.map (keyOf ks)) :
    r ∈ syncTable ks d t := by
  have hnone : firstByKey ks d (keyOf ks r) = none := by
    unfold firstByKey
    rw [List.find?_eq_none]
    intro dd hdd
    simp only [decide_eq_true_iff]
    intro he
    exact hk (he ▸ List.mem_map_of_mem _ hdd)
  have hmu : matchUpd ks d r = r := by unfold matchUpd; rw [hnone]
  unfold syncTable
  exact List.mem_append_left _ (hmu ▸ List.mem_map_of_mem _ hr)

/-- After one full sync_entity round no row carries a key outside the
desired key set. -/
theorem run_removes (ks : List String) (d t : List Row) (k : RKey)
    (hk : k ∉ d.map (keyOf ks)) :
    k ∉ (syncEntityRun ks d t).map (keyOf ks) := by
  intro hmem
  obtain ⟨r, hr, hkr⟩ := List.mem_map.mp hmem
  exact hk (hkr ▸ run_keys_sub ks d t r hr)

/-! Claim theorems. -/

/-- C1: running the full import twice with identical input text is
idempotent: after from_unicode is run a second time on the same domain
and tree strings, the persisted store is equal to its state after the
first run (no duplicate inserts, no spurious deletes on the second
pass). -/
theorem c1_import_idempotent (domain_str gittree_str : PyStr) (s : Store) :
    from_unicode_run domain_str gittree_str (from_unicode_run domain_str gittree_str s) =
      from_unicode_run domain_str gittree_str s := by
  cases h : desiredOf domain_str gittree_str with
  | none => simp [from_unicode_run, from_unicode, h]
  | some D => simp [from_unicode_run, from_unicode, h, loadPhase_idem]

/-- C2: from_unicode invokes every deferred deletion closure returned by
sync_entity only after all sync_entity and sync_nnr calls have
completed, and in reverse-dependency order: each referencing table's
closure runs before the closure of any table it references (UserParty,
GitTreeRole, SubDomainRole, DomainRole before GitTree, GitTree before
SubDomain, SubDomain before Domain). -/
theorem c2_deletes_after_syncs_reverse_dependency :
    syncsBeforeDeletes loadTrace = true ∧
    Event.invokeDelete .UserParty ∈ loadTrace ∧
    Event.invokeDelete .GitTreeRole ∈ loadTrace ∧
    Event.invokeDelete .SubDomainRole ∈ loadTrace ∧
    Event.invokeDelete .DomainRole ∈ loadTrace ∧
    Event.invokeDelete .GitTree ∈ loadTrace ∧
    Event.invokeDelete .SubDomain ∈ loadTrace ∧
    Event.invokeDelete .Domain ∈ loadTrace ∧
    evIdx loadTrace (.invokeDelete .UserParty) < evIdx loadTrace (.invokeDelete .GitTree) ∧
    evIdx loadTrace (.invokeDelete .GitTreeRole) < evIdx loadTrace (.invokeDelete .GitTree) ∧
    evIdx loadTrace (.invokeDelete .SubDomainRole) < evIdx loadTrace (.invokeDelete .GitTree) ∧
    evIdx loadTrace (.invokeDelete .DomainRole) < evIdx loadTrace (.invokeDelete .GitTree) ∧
    evIdx loadTrace (.invokeDelete .SubDomainRole) < evIdx loadTrace (.invokeDelete .SubDomain) ∧
    evIdx loadTrace (.invokeDelete .DomainRole) < evIdx loadTrace (.invokeDelete .Domain) ∧
    evIdx loadTrace (.invokeDelete .GitTree) < evIdx loadTrace (.invokeDelete .SubDomain) ∧
    evIdx loadTrace (.invokeDelete .SubDomain) < evIdx loadTrace (.invokeDelete .Domain) := by
  decide

/-- C3: in from_unicode, every entity table is synced after every table
its natural keys reference: Domain before SubDomain, SubDomain before
GitTree, Domain before DomainRole, SubDomain before SubDomainRole,
GitTree before GitTreeRole, and User before every role-user relation
sync. -/
theorem c3_parents_synced_first :
    Event.syncEntity .User ∈ loadTrace ∧
    Event.syncEntity .Domain ∈ loadTrace ∧
    Event.syncEntity .SubDomain ∈ loadTrace ∧
    Event.syncEntity .DomainRole ∈ loadTrace ∧
    Event.syncEntity .SubDomainRole ∈ loadTrace ∧
    Event.syncEntity .GitTree ∈ loadTrace ∧
    Event.syncEntity .GitTreeRole ∈ loadTrace ∧
    Event.syncNNR .DomainRole .User ∈ loadTrace ∧
    Event.syncNNR .SubDomainRole .User ∈ loadTrace ∧
    Event.syncNNR .GitTreeRole .User ∈ loadTrace ∧
    Event.syncNNR .UserParty .User ∈ loadTrace ∧
    evIdx loadTrace (.syncEntity .Domain) < evIdx loadTrace (.syncEntity .SubDomain) ∧
    evIdx loadTrace (.syncEntity .SubDomain) < evIdx loadTrace (.syncEntity .GitTree) ∧
    evIdx loadTrace (.syncEntity .Domain) < evIdx loadTrace (.syncEntity .DomainRole) ∧
    evIdx loadTrace (.syncEntity .SubDomain) < evIdx loadTrace (.syncEntity .SubDomainRole) ∧
    evIdx loadTrace (.syncEntity .GitTree) < evIdx loadTrace (.syncEntity .GitTreeRole) ∧
    evIdx loadTrace (.syncEntity .User) < evIdx loadTrace (.syncNNR .DomainRole .User) ∧
    evIdx loadTrace (.syncEntity .User) < evIdx loadTrace (.syncNNR .SubDomainRole .User) ∧
    evIdx loadTrace (.syncEntity .User) < evIdx loadTrace (.syncNNR .GitTreeRole .User) ∧
    evIdx loadTrace (.syncEntity .User) < evIdx loadTrace (.syncNNR .UserParty .User) := by
  decide

/-- C8: from_unicode never deletes User rows: the deletion closure
returned by sync_entity(users, User) is discarded and never invoked, so
persisted users absent from the current input survive the run, unlike
rows of the other seven entity tables whose closures are all invoked
(their rows with undesired keys are removed). -/
theorem c8_user_rows_survive (D : Desired) (s : Store) :
    (∀ r ∈ s.users, keyOf userKey r ∉ D.users.map (keyOf userKey) →
      r ∈ (loadPhase D s).users) ∧
    (∀ k : RKey, k ∉ D.domains.map (keyOf domainKey) →
      k ∉ (loadPhase D s).domains.map (keyOf domainKey)) ∧
    (∀ k : RKey, k ∉ D.subdomains.map (keyOf subdomainKey) →
      k ∉ (loadPhase D s).subdomains.map (keyOf subdomainKey)) ∧
    (∀ k : RKey, k ∉ D.domainroles.map (keyOf domainroleKey) →
      k ∉ (loadPhase D s).domainroles.map (keyOf domainroleKey)) ∧
    (∀ k : RKey, k ∉ D.subdomainroles.map (keyOf subdomainroleKey) →
      k ∉ (loadPhase D s).subdomainroles.map (keyOf subdomainroleKey)) ∧
    (∀ k : RKey, k ∉ D.trees.map (keyOf gittreeKey) →
      k ∉ (loadPhase D s).trees.map (keyOf gittreeKey)) ∧
    (∀ k : RKey, k ∉ D.treeroles.map (keyOf gittreeroleKey) →
      k ∉ (loadPhase D s).treeroles.map (keyOf gittreeroleKey)) ∧
    (∀ k : RKey, k ∉ D.parties.map (keyOf partyKey) →
      k ∉ (loadPhase D s).parties.map (keyOf partyKey)) ∧
    Event.invokeDelete .User ∉ loadTrace ∧
    (∀ tb : STable, tb ≠ .User → tb ≠ .License → Event.invokeDelete tb ∈ loadTrace) := by
  refine ⟨?_, ?_, ?_, ?_, ?_, ?_, ?_, ?_, by decide, by decide⟩
  · intro r hr hk
    exact syncTable_preserves userKey D.users s.users r hr hk
  · intro k hk; exact run_removes domainKey D.domains s.domains k hk
  · intro k hk; exact run_removes subdomainKey D.subdomains s.subdomains k hk
  · intro k hk; exact run_removes domainroleKey D.domainroles s.domainroles k hk
  · intro k hk; exact run_removes subdomainroleKey D.subdomainroles s.subdomainroles k hk
  · intro k hk; exact run_removes gittreeKey D.trees s.trees k hk
  · intro k hk; exact run_removes gittreeroleKey D.treeroles s.treeroles k hk
  · intro k hk; exact run_removes partyKey D.parties s.parties k hk

/-- Witness for C8 at a concrete desired state and store: a persisted
user not in the input survives, a persisted domain not in the input is
removed. -/
theorem c8_user_rows_survive_witness :
    [("email", "a".toList)] ∈
      (loadPhase ⟨[], [], [], [], [], [], [], [], [], [], [], [], []⟩
        ⟨[[("email", "a".toList)]], [[("name", "x".toList)]],
          [], [], [], [], [], [], [], [], [], [], []⟩).users ∧
    keyOf domainKey [("name", "x".toList)] ∉
      (loadPhase ⟨[], [], [], [], [], [], [], [], [], [], [], [], []⟩
        ⟨[[("email", "a".toList)]], [[("name", "x".toList)]],
          [], [], [], [], [], [], [], [], [], [], []⟩).domains.map (keyOf domainKey) := by
  refine ⟨(c8_user_rows_survive _ _).1 _ (by decide) (by decide),
    (c8_user_rows_survive _ _).2.1 _ (by decide)⟩

/-! Support lemmas for the transform claims. -/

/-- Splitting at a character that does not occur returns the whole
string and no tail. -/
theorem splitFirstChar_not_mem (c : Char) (s : PyStr) (h : c ∉ s) :
    splitFirstChar c s = (s, none) := by
  induction s with
  | nil => rfl
  | cons a rest ih =>
    simp only [List.mem_cons, not_or] at h
    have hne : ¬(a = c) := fun he => h.1 he.symm
    simp [splitFirstChar, hne, ih h.2]

/-- Splitting at a character that occurs yields a tail. -/
theorem splitFirstChar_mem (c : Char) (s : PyStr) (h : c ∈ s) :
    ∃ b, (splitFirstChar c s).2 = some b := by
  induction s with
  | nil => cases h
  | cons a rest ih =>
    by_cases hac : a = c
    · exact ⟨rest, by simp [splitFirstChar, hac]⟩
    · rcases List.mem_cons.mp h with he | hm
      · exact absurd he.symm hac
      · obtain ⟨b, hb⟩ := ih hm
        exact ⟨b, by simp [splitFirstChar, hac, hb]⟩

/-- A user whose email carries an at sign gets a party row. -/
theorem partyUser_isSome (u : Row) (h : '@' ∈ dictGet u "email") :
    (partyUser u).isSome := by
  obtain ⟨dom, hdom⟩ := splitFirstChar_mem '@' _ h
  simp [partyUser, hdom]

/-- The option-valued map succeeds on a list without failures and is
the plain map there. -/
theorem mapOpt_total {α β : Type} (f : α → Option β) (l : List α) (dflt : β)
    (h : ∀ a ∈ l, (f a).isSome) :
    mapOpt f l = some (l.map (fun a => (f a).getD dflt)) := by
  induction l with
  | nil => rfl
  | cons a rest ih =>
    obtain ⟨b, hb⟩ := Option.isSome_iff_exists.mp (h a (List.mem_cons_self a rest))
    have ihr := ih (fun x hx => h x (List.mem_cons_of_mem a hx))
    rw [List.map_cons]
    unfold mapOpt
    rw [hb, ihr]
    simp [hb]

/-- One resolved role-user pair per cache-resolvable value. -/
theorem roleUsers_length (uc : UserCache) (base : Row) (vals : List PyStr) :
    (roleUsers uc base vals).length =
      (vals.filter (fun u => (uc.get u).isSome)).length := by
  induction vals with
  | nil => rfl
  | cons v rest ih =>
    unfold roleUsers at ih ⊢
    rw [List.filterMap_cons, List.filter_cons]
    cases h : uc.get v with
    | none => simp [h, ih]
    | some usr => simp [h, ih]

/-- The domain list of the transform accumulator only grows along the
block loop. -/
theorem domains_foldl_mono (uc : UserCache) (l : List Block) (acc : DomainsOut)
    (x : Row) (hx : x ∈ acc.domains) :
    x ∈ (l.foldl (domStep uc) acc).domains := by
  induction l generalizing acc with
  | nil => exact hx
  | cons b rest ih =>
    rw [List.foldl_cons]
    apply ih
    unfold domStep
    by_cases hp : (Block.getF b "PARENT").isSome
    · rw [if_pos hp]
      exact hx
    · rw [if_neg hp]
      exact List.mem_append_left _ hx

/-! Remaining claim theorems. -/

/-- C5: for every role field value for which the identity cache's get
returns the absence marker, transform_domains and transform_trees emit
no role-user pair for that value and do not raise (the transforms are
total functions); the remaining values of the same role field and the
role record itself are still produced: the pair list is exactly the
cache-resolvable values in order, one pair each. -/
theorem c5_absent_identities_skipped (b c : Block) (uc : UserCache) (role : String)
    (hb : (b.getF "PARENT").isSome = true)
    (hrb : rolesOf b = [role]) (hrc : rolesOf c = [role]) :
    (transform_domains [b] uc).subdomainrole_users =
      roleUsers uc (srBase role (parse_name b.marker).1 (parse_name b.marker).2)
        (b.getVals role) ∧
    (transform_domains [b] uc).subdomainroles =
      [srBase role (parse_name b.marker).1 (parse_name b.marker).2 ++
        [("name", subrolename role (parse_name b.marker).1 (parse_name b.marker).2)]] ∧
    (transform_domains [b] uc).subdomainrole_users.length =
      ((b.getVals role).filter (fun u => (uc.get u).isSome)).length ∧
    (transform_trees [c] uc).treerole_users =
      roleUsers uc (trBase role c.marker) (c.getVals role) ∧
    (transform_trees [c] uc).treeroles =
      [trBase role c.marker ++ [("name", rolename role c.marker)]] ∧
    (transform_trees [c] uc).treerole_users.length =
      ((c.getVals role).filter (fun u => (uc.get u).isSome)).length := by
  have hd : transform_domains [b] uc =
      { transSubdomain uc domInit b with
        subdomains := (transSubdomain uc domInit b).subdomains ++
          (transSubdomain uc domInit b).domains.map
            (fun dom => [("name", NONAME), ("domain__name", dictGet dom "name")]) } := by
    simp [transform_domains, domStep, hb]
  have ht : transform_trees [c] uc =
      transTree uc { trees := [], tree_licenses := [], treeroles := [], treerole_users := [] } c :=
    rfl
  refine ⟨?_, ?_, ?_, ?_, ?_, ?_⟩
  · rw [hd]
    simp [transSubdomain, hrb, domInit]
  · rw [hd]
    simp [transSubdomain, hrb, domInit]
  · rw [hd]
    show (transSubdomain uc domInit b).subdomainrole_users.length = _
    simp [transSubdomain, hrb, domInit, roleUsers_length]
  · rw [ht]
    simp [transTree, hrc]
  · rw [ht]
    simp [transTree, hrc]
  · rw [ht]
    simp [transTree, hrc, roleUsers_length]

/-- Witness for C5 at a concrete subdomain block, tree block and the
empty cache: every get returns the absence marker, so no pair is
emitted while the role records are. -/
theorem c5_absent_identities_skipped_witness :
    (transform_domains [⟨"Sys".toList, [("PARENT", [([] : PyStr)]), ("REVIEWER", ["bad".toList])]⟩]
        UserCache.empty).subdomainrole_users =
      roleUsers UserCache.empty
        (srBase "REVIEWER"
          (parse_name ("Sys".toList)).1 (parse_name ("Sys".toList)).2)
        ["bad".toList] := by
  have h := c5_absent_identities_skipped
    ⟨"Sys".toList, [("PARENT", [([] : PyStr)]), ("REVIEWER", ["bad".toList])]⟩
    ⟨"pkg".toList, [("REVIEWER", ["bad".toList])]⟩
    UserCache.empty "REVIEWER" (by decide) (by decide) (by decide)
  exact h.1

/-- C6: for every byte-string input, from_string decodes both the
domain text and the tree text using the given coding before calling
from_unicode; if decoding fails, it aborts (none) before any block is
parsed and before any store operation (the store appears in no
result). -/
theorem c6_decode_before_parse (dec : String → List Nat → Option PyStr)
    (dt gt : PyText) (coding : String) (s : Store) :
    (decodeWith dec coding dt = none → from_string dec dt gt coding s = none) ∧
    (∀ d0, decodeWith dec coding dt = some d0 → decodeWith dec coding gt = none →
      from_string dec dt gt coding s = none) ∧
    (∀ d0 g0, decodeWith dec coding dt = some d0 → decodeWith dec coding gt = some g0 →
      from_string dec dt gt coding s = from_unicode d0 g0 s) := by
  refine ⟨?_, ?_, ?_⟩
  · intro h
    simp [from_string, h]
  · intro d0 h1 h2
    simp [from_string, h1, h2]
  · intro d0 g0 h1 h2
    simp [from_string, h1, h2]

/-- Witness for C6 with a concrete one-byte-per-character decoder on
byte inputs and the empty store. -/
theorem c6_decode_before_parse_witness :
    from_string (fun _ bs => some (bs.map Char.ofNat)) (.bytes [68]) (.bytes [84]) "utf8"
        ⟨[], [], [], [], [], [], [], [], [], [], [], [], []⟩ =
      from_unicode ['D'] ['T'] ⟨[], [], [], [], [], [], [], [], [], [], [], [], []⟩ :=
  (c6_decode_before_parse (fun _ bs => some (bs.map Char.ofNat)) (.bytes [68]) (.bytes [84])
    "utf8" ⟨[], [], [], [], [], [], [], [], [], [], [], [], []⟩).2.2
    ['D'] ['T'] (by decide) (by decide)

/-- C7: transform_parties assigns every user to exactly one party by
email-domain suffix matching with a default bucket: party is INTEL if
the lowercased domain part of the user's email ends with intel.com,
SAMSUNG if it ends with samsung.com, and TIZEN otherwise. -/
theorem c7_party_suffix_rule (users : List Row)
    (h : ∀ u ∈ users, '@' ∈ dictGet u "email") :
    transform_parties users =
      some (PARTY_ROWS, users.map (fun u => (partyUser u).getD ([], []))) ∧
    ∀ u ∈ users, ∃ dom, (splitFirstChar '@' (dictGet u "email")).2 = some dom ∧
      partyUser u = some ([("party",
        if ("intel.com".toList).isSuffixOf (lowerStr dom) then "INTEL".toList
        else if ("samsung.com".toList).isSuffixOf (lowerStr dom) then "SAMSUNG".toList
        else "TIZEN".toList)], u) := by
  constructor
  · unfold transform_parties
    rw [mapOpt_total partyUser users ([], []) (fun u hu => partyUser_isSome u (h u hu))]
  · intro u hu
    obtain ⟨dom, hdom⟩ := splitFirstChar_mem '@' _ (h u hu)
    exact ⟨dom, hdom, by simp [partyUser, hdom]⟩

/-- Witness for C7 on one concrete user of each party bucket. -/
theorem c7_party_suffix_rule_witness :
    transform_parties
        [[("email", "bob@Intel.COM".toList)], [("email", "kim@m.samsung.com".toList)],
         [("email", "lee@example.org".toList)]] =
      some (PARTY_ROWS,
        [([("party", "INTEL".toList)], [("email", "bob@Intel.COM".toList)]),
         ([("party", "SAMSUNG".toList)], [("email", "kim@m.samsung.com".toList)]),
         ([("party", "TIZEN".toList)], [("email", "lee@example.org".toList)])]) := by
  have h := (c7_party_suffix_rule
    [[("email", "bob@Intel.COM".toList)], [("email", "kim@m.samsung.com".toList)],
     [("email", "lee@example.org".toList)]] (by decide)).1
  rw [h]
  decide

/-- C9: transform_domains always outputs the Uncategorized domain and,
for every domain in its output, an Uncategorized subdomain under that
domain; via parse_name, a name without a slash is placed under the
(stripped) value as domain with subdomain Uncategorized, and an empty
value yields the Uncategorized domain. -/
theorem c9_uncategorized_defaults (dd : List Block) (uc : UserCache) :
    [("name", NONAME)] ∈ (transform_domains dd uc).domains ∧
    (∀ dom ∈ (transform_domains dd uc).domains,
      [("name", NONAME), ("domain__name", dictGet dom "name")] ∈
        (transform_domains dd uc).subdomains) ∧
    (∀ v : PyStr, '/' ∉ v →
      parse_name v = (if (pstrip v).isEmpty then NONAME else pstrip v, NONAME)) ∧
    (∀ v : PyStr, '/' ∉ v → pstrip v = v → v ≠ [] → parse_name v = (v, NONAME)) ∧
    parse_name [] = (NONAME, NONAME) := by
  refine ⟨?_, ?_, ?_, ?_, by decide⟩
  · show [("name", NONAME)] ∈ (dd.foldl (domStep uc) domInit).domains
    exact domains_foldl_mono uc dd domInit _ (by simp [domInit])
  · intro dom hdom
    show _ ∈ (dd.foldl (domStep uc) domInit).subdomains ++
      (dd.foldl (domStep uc) domInit).domains.map
        (fun dom => [("name", NONAME), ("domain__name", dictGet dom "name")])
    exact List.mem_append_right _ (List.mem_map_of_mem _ hdom)
  · intro v hv
    have hs := splitFirstChar_not_mem '/' v hv
    by_cases he : (pstrip v).isEmpty <;> simp [parse_name, hs, he]
  · intro v hv hstrip hne
    have hs := splitFirstChar_not_mem '/' v hv
    have hno : v.isEmpty = false := by
      cases v with
      | nil => exact absurd rfl hne
      | cons a rest => rfl
    simp [parse_name, hs, hstrip, hno]

/-- Witness for C9 on the empty block list and a concrete slash-free
name. -/
theorem c9_uncategorized_defaults_witness :
    [("name", NONAME)] ∈ (transform_domains [] UserCache.empty).domains ∧
    parse_name "Apps".toList = ("Apps".toList, NONAME) := by
  have h := c9_uncategorized_defaults [] UserCache.empty
  exact ⟨h.1, h.2.2.2.1 "Apps".toList (by decide) (by decide) (by decide)⟩

/-- C10: transform_parties is total only under the precondition that
every user email contains an at sign: it succeeds on every user list
whose emails all contain one, and fails (the embedded IndexError) on a
user whose email lacks one. -/
theorem c10_party_at_sign_precondition :
    (∀ users : List Row, (∀ u ∈ users, '@' ∈ dictGet u "email") →
      (transform_parties users).isSome = true) ∧
    transform_parties [[("email", "nobody".toList)]] = none := by
  constructor
  · intro users h
    have := mapOpt_total partyUser users ([], [])
      (fun u hu => partyUser_isSome u (h u hu))
    simp [transform_parties, this]
  · decide

/-- Witness for C10 on a concrete user list whose single email carries
an at sign. -/
theorem c10_party_at_sign_precondition_witness :
    (transform_parties [[("email", "a@b".toList)]]).isSome = true :=
  c10_party_at_sign_precondition.1 [[("email", "a@b".toList)]] (by decide)

/-! Identity cache lemmas. -/

/-- The empty cache satisfies the cache invariant. -/
theorem cacheInv_empty : CacheInv UserCache.empty := by
  constructor
  · intro e1 he1
    cases he1
  · intro e he
    cases he

/-- Registration preserves the cache invariant. -/
theorem cacheInv_update (uc : UserCache) (raw : PyStr) (h : CacheInv uc) :
    CacheInv (uc.update raw) := by
  obtain ⟨h1, h2⟩ := h
  by_cases hin : (uc.entries.find? (fun e => decide (e.1 = raw))).isSome
  · unfold UserCache.update
    rw [if_pos hin]
    exact ⟨h1, h2⟩
  · cases hp : parseIdentity raw with
    | none =>
      unfold UserCache.update
      rw [if_neg hin, hp]
      exact ⟨h1, h2⟩
    | some rec0 =>
      cases hf : uc.entries.find? (fun e => decide (emailKey e.2 = emailKey rec0)) with
      | none =>
        have hnew : (uc.update raw).entries = uc.entries ++ [(raw, rec0)] := by
          unfold UserCache.update
          rw [if_neg hin]
          simp only [hp, hf]
        have hnone : ∀ e ∈ uc.entries, ¬(emailKey e.2 = emailKey rec0) := by
          intro e he
          have := List.find?_eq_none.mp hf e he
          simpa using this
        constructor
        · intro e1 he1 e2 he2 hek
          rw [hnew] at he1 he2
          rcases List.mem_append.mp he1 with he1 | he1 <;>
            rcases List.mem_append.mp he2 with he2 | he2
          · exact h1 e1 he1 e2 he2 hek
          · rw [List.mem_singleton.mp he2] at hek ⊢
            exact absurd hek (hnone e1 he1)
          · rw [List.mem_singleton.mp he1] at hek ⊢
            exact absurd hek.symm (hnone e2 he2)
          · rw [List.mem_singleton.mp he1, List.mem_singleton.mp he2]
        · intro e he
          rw [hnew] at he
          rcases List.mem_append.mp he with he | he
          · exact h2 e he
          · rw [List.mem_singleton.mp he]
            exact ⟨rec0, hp, rfl⟩
      | some e0 =>
        have hnew : (uc.update raw).entries = uc.entries ++ [(raw, e0.2)] := by
          unfold UserCache.update
          rw [if_neg hin]
          simp only [hp, hf]
        have he0 : e0 ∈ uc.entries := List.mem_of_find?_eq_some hf
        have hek0 : emailKey e0.2 = emailKey rec0 := by
          have hq := List.find?_some hf
          simpa using hq
        constructor
        · intro e1 he1 e2 he2 hek
          rw [hnew] at he1 he2
          rcases List.mem_append.mp he1 with he1 | he1 <;>
            rcases List.mem_append.mp he2 with he2 | he2
          · exact h1 e1 he1 e2 he2 hek
          · rw [List.mem_singleton.mp he2] at hek ⊢
            exact h1 e1 he1 e0 he0 hek
          · rw [List.mem_singleton.mp he1] at hek ⊢
            exact h1 e0 he0 e2 he2 hek
          · rw [List.mem_singleton.mp he1, List.mem_singleton.mp he2]
        · intro e he
          rw [hnew] at he
          rcases List.mem_append.mp he with he | he
          · exact h2 e he
          · rw [List.mem_singleton.mp he]
            exact ⟨rec0, hp, hek0.symm⟩

/-- Folding any cache-invariant-preserving step preserves the cache
invariant. -/
theorem cacheInv_foldl {α : Type} (f : UserCache → α → UserCache)
    (hf : ∀ uc a, CacheInv uc → CacheInv (f uc a)) :
    ∀ (l : List α) (uc : UserCache), CacheInv uc → CacheInv (l.foldl f uc) := by
  intro l
  induction l with
  | nil => intro uc h; exact h
  | cons a rest ih =>
    intro uc h
    rw [List.foldl_cons]
    exact ih (f uc a) (hf uc a h)

/-- Registering a whole block preserves the cache invariant. -/
theorem cacheInv_cacheBlock (uc : UserCache) (b : Block) (h : CacheInv uc) :
    CacheInv (cacheBlock uc b) := by
  unfold cacheBlock
  refine cacheInv_foldl _ ?_ (rolesOf b) uc h
  intro uc r hr
  exact cacheInv_foldl UserCache.update (fun uc raw => cacheInv_update uc raw) _ uc hr

/-- The full identity cache of one run satisfies the cache invariant. -/
theorem cacheInv_build (dd td : List Block) : CacheInv (build_user_cache dd td) := by
  unfold build_user_cache
  refine cacheInv_foldl cacheBlock (fun uc b => cacheInv_cacheBlock uc b) td _ ?_
  exact cacheInv_foldl cacheBlock (fun uc b => cacheInv_cacheBlock uc b) dd _ cacheInv_empty

/-- Records already collected stay collected along the all() fold. -/
theorem allAux_mono (l : List (PyStr × Row)) (acc : List Row) (v : Row)
    (hv : v ∈ acc) :
    v ∈ l.foldl
      (fun acc e => if acc.any (fun r => decide (emailKey r = emailKey e.2)) then acc
                    else acc ++ [e.2]) acc := by
  induction l generalizing acc with
  | nil => exact hv
  | cons e rest ih =>
    rw [List.foldl_cons]
    by_cases h : acc.any (fun r => decide (emailKey r = emailKey e.2))
    · rw [if_pos h]
      exact ih acc hv
    · rw [if_neg h]
      exact ih _ (List.mem_append_left _ hv)

/-- Every record collected by the all() fold comes from the accumulator
or from an entry. -/
theorem allAux_sub (l : List (PyStr × Row)) (acc : List Row) (v : Row)
    (hv : v ∈ l.foldl
      (fun acc e => if acc.any (fun r => decide (emailKey r = emailKey e.2)) then acc
                    else acc ++ [e.2]) acc) :
    v ∈ acc ∨ ∃ e ∈ l, v = e.2 := by
  induction l generalizing acc with
  | nil => exact Or.inl hv
  | cons e rest ih =>
    rw [List.foldl_cons] at hv
    by_cases h : acc.any (fun r => decide (emailKey r = emailKey e.2))
    · rw [if_pos h] at hv
      rcases ih acc hv with h' | ⟨e', he', hv'⟩
      · exact Or.inl h'
      · exact Or.inr ⟨e', List.mem_cons_of_mem e he', hv'⟩
    · rw [if_neg h] at hv
      rcases ih _ hv with h' | ⟨e', he', hv'⟩
      · rcases List.mem_append.mp h' with h' | h'
        · exact Or.inl h'
        · exact Or.inr ⟨e, List.mem_cons_self e rest, List.mem_singleton.mp h'⟩
      · exact Or.inr ⟨e', List.mem_cons_of_mem e he', hv'⟩

/-- The all() fold keeps case-insensitive emails pairwise distinct. -/
theorem allAux_pairwise (l : List (PyStr × Row)) (acc : List Row)
    (hacc : List.Pairwise (fun a b => emailKey a ≠ emailKey b) acc) :
    List.Pairwise (fun a b => emailKey a ≠ emailKey b)
      (l.foldl
        (fun acc e => if acc.any (fun r => decide (emailKey r = emailKey e.2)) then acc
                      else acc ++ [e.2]) acc) := by
  induction l generalizing acc with
  | nil => exact hacc
  | cons e rest ih =>
    rw [List.foldl_cons]
    by_cases h : acc.any (fun r => decide (emailKey r = emailKey e.2))
    · rw [if_pos h]
      exact ih acc hacc
    · rw [if_neg h]
      apply ih
      rw [List.pairwise_append]
      refine ⟨hacc, List.pairwise_singleton _ _, ?_⟩
      intro a ha b hb
      rw [List.mem_singleton.mp hb]
      intro hab
      apply h
      rw [List.any_eq_true]
      exact ⟨a, ha, by simp [hab]⟩

/-- Every entry's email is represented among the collected records. -/
theorem allAux_covers (l : List (PyStr × Row)) (acc : List Row)
    (e : PyStr × Row) (he : e ∈ l) :
    ∃ v ∈ l.foldl
      (fun acc e => if acc.any (fun r => decide (emailKey r = emailKey e.2)) then acc
                    else acc ++ [e.2]) acc, emailKey v = emailKey e.2 := by
  induction l generalizing acc with
  | nil => cases he
  | cons e0 rest ih =>
    rw [List.foldl_cons]
    rcases List.mem_cons.mp he with he | he
    · subst he
      by_cases h : acc.any (fun r => decide (emailKey r = emailKey e.2))
      · rw [if_pos h]
        obtain ⟨r, hr, hrk⟩ := List.any_eq_true.mp h
        exact ⟨r, allAux_mono rest acc r hr, by simpa using hrk⟩
      · rw [if_neg h]
        exact ⟨e.2, allAux_mono rest _ _ (List.mem_append_right _ (List.mem_singleton.mpr rfl)),
          rfl⟩
    · by_cases h : acc.any (fun r => decide (emailKey r = emailKey e0.2))
      · rw [if_pos h]
        exact ih acc he
      · rw [if_neg h]
        exact ih (acc ++ [e0.2]) he

/-- A successful get comes from an entry of the cache. -/
theorem get_entry (uc : UserCache) (raw : PyStr) (u : Row)
    (h : uc.get raw = some u) :
    ∃ e ∈ uc.entries, e.1 = raw ∧ e.2 = u := by
  unfold UserCache.get at h
  cases hf : uc.entries.find? (fun e => decide (e.1 = raw)) with
  | none => rw [hf] at h; cases h
  | some e =>
    rw [hf] at h
    have heq : e.1 = raw := by
      have := List.find?_some hf
      simpa using this
    have hu : e.2 = u := by
      simpa using h
    exact ⟨e, List.mem_of_find?_eq_some hf, heq, hu⟩

/-- C4: after build_user_cache, any two raw identity strings whose
parsed emails are equal up to letter case map to the same canonical
identity record, and the cache's all() contains every cached record
exactly once per distinct case-insensitive email. -/
theorem c4_identity_cache_dedupes (dd td : List Block) :
    (∀ r1 r2 u1 u2 p1 p2,
      (build_user_cache dd td).get r1 = some u1 →
      (build_user_cache dd td).get r2 = some u2 →
      parseIdentity r1 = some p1 → parseIdentity r2 = some p2 →
      emailKey p1 = emailKey p2 → u1 = u2) ∧
    (∀ r u, (build_user_cache dd td).get r = some u →
      u ∈ (build_user_cache dd td).all) ∧
    List.Pairwise (fun a b => emailKey a ≠ emailKey b) (build_user_cache dd td).all := by
  obtain ⟨h1, h2⟩ := cacheInv_build dd td
  refine ⟨?_, ?_, ?_⟩
  · intro r1 r2 u1 u2 p1 p2 hg1 hg2 hp1 hp2 hpk
    obtain ⟨e1, he1, hr1, hu1⟩ := get_entry _ r1 u1 hg1
    obtain ⟨e2, he2, hr2, hu2⟩ := get_entry _ r2 u2 hg2
    obtain ⟨q1, hq1, hk1⟩ := h2 e1 he1
    obtain ⟨q2, hq2, hk2⟩ := h2 e2 he2
    rw [hr1, hp1] at hq1
    rw [hr2, hp2] at hq2
    have hq1e : p1 = q1 := Option.some.inj hq1
    have hq2e : p2 = q2 := Option.some.inj hq2
    have hkk : emailKey e1.2 = emailKey e2.2 := by
      rw [← hk1, ← hk2, ← hq1e, ← hq2e]
      exact hpk
    have := h1 e1 he1 e2 he2 hkk
    rw [hu1, hu2] at this
    exact this
  · intro r u hg
    obtain ⟨e, he, hr, hu⟩ := get_entry _ r u hg
    obtain ⟨v, hv, hvk⟩ := allAux_covers (build_user_cache dd td).entries [] e he
    rcases allAux_sub _ [] v hv with h' | ⟨e', he', hv'⟩
    · cases h'
    · have : e'.2 = e.2 := h1 e' he' e he (hv' ▸ hvk)
      have hvu : v = u := by rw [hv', this, hu]
      show u ∈ (build_user_cache dd td).entries.foldl _ []
      exact hvu ▸ hv
  · exact allAux_pairwise _ [] (List.Pairwise.nil)

/-- Witness for C4 on the spec's example: two case-variant raw strings
for one email resolve to one record. -/
theorem c4_identity_cache_dedupes_witness :
    ([("email", "a@x.com".toList), ("name", "Alice".toList)] : Row) =
      [("email", "a@x.com".toList), ("name", "Alice".toList)] :=
  (c4_identity_cache_dedupes
      [⟨"Sys".toList, [("REVIEWER", ["Alice <a@x.com>".toList, "alice <A@X.COM>".toList])]⟩]
      []).1
    "Alice <a@x.com>".toList "alice <A@X.COM>".toList
    [("email", "a@x.com".toList), ("name", "Alice".toList)]
    [("email", "a@x.com".toList), ("name", "Alice".toList)]
    [("email", "a@x.com".toList), ("name", "Alice".toList)]
    [("email", "A@X.COM".toList), ("name", "alice".toList)]
    (by decide) (by decide) (by decide) (by decide) (by decide)

end Scm
